import Mathlib

/-
Verification of the raycasting engine in `src/main.rs` (olc_fps_rs).

The `f32` arithmetic of the source is modelled as exact arithmetic:
the per-column ray march, the frame compositor and the minimap (which use
only field operations, truncation and comparisons) are embedded over `ℚ`
and are fully executable; the boundary classification and the controller
(which use `sqrt`, `acos`, `sin`, `cos`) are embedded over `ℝ`.
Rust's `as i32` cast (truncation toward zero) is `truncI`; Rust's
`as usize` cast (truncation toward zero, saturating at 0 for negative
values) is `toCellNat`.
-/

namespace OlcFps

/- Batteries marks the `Rat` field operations `@[irreducible]`, which blocks
`decide` from evaluating concrete rational computations; restore the default
reducibility locally so the executable model can be run on concrete inputs. -/
attribute [local semireducible] Rat.add Rat.mul Rat.inv Rat.sub

set_option maxRecDepth 100000

set_option maxHeartbeats 1600000

/-! ## Constants (src/main.rs lines 17-26) -/

def SCREEN_WIDTH : ℕ := 120

def SCREEN_HEIGHT : ℕ := 40

def SCREEN_SIZE : ℕ := SCREEN_WIDTH * SCREEN_HEIGHT

def MAP_HEIGHT : ℕ := 16

def MAP_WIDTH : ℕ := 16

def DEPTH : ℚ := 16

/-! ## Map (src/main.rs `init_map`, `is_wall`) -/

/-- The compiled-in literal grid of `init_map`: sixteen rows of sixteen
cells, `'#'` wall and `'.'` open. -/
def gameMap : List Char :=
  ("################" ++
   "#..............#" ++
   "#..............#" ++
   "#..........#...#" ++
   "#..........#...#" ++
   "#..............#" ++
   "#..............#" ++
   "#..............#" ++
   "#..............#" ++
   "#..............#" ++
   "#..............#" ++
   "#..............#" ++
   "#.......########" ++
   "#..............#" ++
   "#..............#" ++
   "################").toList

/-- `is_wall`: `map[y * MAP_WIDTH + x] == '#'`.  The source indexes the
slice directly (callers guarantee the index is in bounds); out-of-range
indices default to the open glyph here. -/
def is_wall (map : List Char) (x y : ℕ) : Bool :=
  map.getD (y * MAP_WIDTH + x) '.' == '#'

/-! ## Numeric casts -/

/-- Rust `as i32` on a float: truncation toward zero. -/
def truncI (q : ℚ) : ℤ :=
  if q < 0 then -⌊-q⌋ else ⌊q⌋

/-- Rust `as usize` on a float: truncation toward zero, saturating at `0`
for negative inputs (so every negative value maps to `0`). -/
noncomputable def toCellNat (r : ℝ) : ℕ :=
  (⌊r⌋).toNat

/-! ## Ray march (src/main.rs `update_screen` lines 175-208)

The `loop` increments `distance_to_wall` by `0.1`, truncates the sampled
point to a cell, and breaks either out-of-bounds (setting the distance to
`DEPTH`) or on a wall (keeping the accumulated distance).  The source loop
is unconditional; the embedding is fuel-indexed, `none` meaning the loop
has not exited within `fuel` iterations. -/

/-- `test_x`: the truncated x cell of the sampled point at distance `d`. -/
def test_x (px ex d : ℚ) : ℤ :=
  truncI (px + ex * d)

/-- `test_y`: the truncated y cell of the sampled point at distance `d`. -/
def test_y (py ey d : ℚ) : ℤ :=
  truncI (py + ey * d)

/-- One column's ray-march loop, `fuel` iterations at most, starting from
accumulated distance `d`. -/
def marchAux (px py ex ey : ℚ) : ℕ → ℚ → Option ℚ
  | 0, _ => none
  | n + 1, d =>
    let d' := d + 1 / 10
    let tX := test_x px ex d'
    let tY := test_y py ey d'
    if tX < 0 ∨ (MAP_WIDTH : ℤ) ≤ tX ∨ tY < 0 ∨ (MAP_HEIGHT : ℤ) ≤ tY then
      some DEPTH
    else if is_wall gameMap tX.toNat tY.toNat then
      some d'
    else
      marchAux px py ex ey n d'

/-- The ray march for one column: player `(px, py)`, eye direction
`(ex, ey)`, starting at distance `0`. -/
def rayMarch (fuel : ℕ) (px py ex ey : ℚ) : Option ℚ :=
  marchAux px py ex ey fuel 0

/-! ## Frame compositor (src/main.rs `update_screen` lines 210-246)

Per column: `ceiling = (H/2 - H/dist) as i32`, `floor = H - ceiling`, then
each row `y` gets the sky glyph (`y < ceiling`), a wall shade
(`y > ceiling && y <= floor`), or the floor gradient glyph (otherwise).
Glyphs are kept as their `u16` character codes. -/

/-- `ceiling`: the first wall row for a column at distance `d`,
`(SCREEN_HEIGHT/2 - SCREEN_HEIGHT/distance_to_wall) as i32`. -/
def ceilingRow (d : ℚ) : ℤ :=
  truncI ((SCREEN_HEIGHT : ℚ) / 2 - (SCREEN_HEIGHT : ℚ) / d)

/-- `floor`: the last wall row, `SCREEN_HEIGHT as i32 - ceiling`. -/
def floorRow (d : ℚ) : ℤ :=
  (SCREEN_HEIGHT : ℤ) - ceilingRow d

/-- The non-boundary wall shade `match` on `distance_to_wall`
(lines 224-230): block glyphs `U+2588`, `U+2593`, `U+2592`, `U+2591`,
then blank. -/
def shadeGlyph (d : ℚ) : ℕ :=
  if d ≤ DEPTH / 4 then '█'.toNat
  else if d < DEPTH / 3 then '▓'.toNat
  else if d < DEPTH / 2 then '▒'.toNat
  else if d < DEPTH then '░'.toNat
  else ' '.toNat

/-- `floor_distance = 1.0 - (y - SCREEN_HEIGHT/2) / (SCREEN_HEIGHT/2)`
(line 235). -/
def floorDistance (y : ℤ) : ℚ :=
  1 - ((y : ℚ) - (SCREEN_HEIGHT : ℚ) / 2) / ((SCREEN_HEIGHT : ℚ) / 2)

/-- The floor-gradient `match` on `floor_distance` (lines 237-243). -/
def floorGlyph (y : ℤ) : ℕ :=
  if floorDistance y < 1/4 then '#'.toNat
  else if floorDistance y < 1/2 then 'x'.toNat
  else if floorDistance y < 3/4 then '-'.toNat
  else if floorDistance y < 9/10 then '.'.toNat
  else ' '.toNat

/-- The character code written to row `y` of a column whose ray returned
`(distance_to_wall, boundary)` (lines 218-245). -/
def renderCell (distanceToWall : ℚ) (boundary : Bool) (y : ℤ) : ℕ :=
  if y < ceilingRow distanceToWall then ' '.toNat
  else if y > ceilingRow distanceToWall ∧ y ≤ floorRow distanceToWall then
    if boundary then ' '.toNat else shadeGlyph distanceToWall
  else floorGlyph y

/-! ## Screen buffer (src/main.rs `init_screen`, `draw_screen_to_console`) -/

/-- `init_screen`: `for _ in 0..=SCREEN_SIZE { screen.push(0) }` — the
inclusive range pushes `SCREEN_SIZE + 1` zeros. -/
def initScreen : List ℕ :=
  List.replicate (SCREEN_SIZE + 1) 0

/-- The buffer effect of `draw_screen_to_console`:
`screen[SCREEN_SIZE - 1] = '\0' as u16` just before the buffer is handed
to `WriteConsoleOutputCharacterW` (which reads `SCREEN_SIZE` cells). -/
def drawScreenToConsole (screen : List ℕ) : List ℕ :=
  screen.set (SCREEN_SIZE - 1) 0

/-! ## Player state and controller (src/main.rs `Player`, `handle_controls`) -/

/-- `struct Player { x: f32, y: f32, a: f32 }`. -/
structure Player where
  x : ℝ
  y : ℝ
  a : ℝ

/-- The heading after the `'A'`/`'D'` branches of `handle_controls`:
`a -= move_speed * rotation_speed * delta_time` when turning left, then
`a += move_speed * rotation_speed * delta_time` when turning right
(`move_speed = 5.0`, `rotation_speed = 0.75`). -/
noncomputable def turnedHeading (a deltaTime : ℝ) (keyA keyD : Bool) : ℝ :=
  let a1 := if keyA then a - 5 * (3/4) * deltaTime else a
  if keyD then a1 + 5 * (3/4) * deltaTime else a1

/-- `handle_controls`: turn on `'A'`/`'D'`, then the `'W'` branch applies
`(sin a, cos a) * move_speed * delta_time` and reverts it if the truncated
cell of the new position is a wall, then the `'S'` branch does the same
backwards.  The four booleans model `GetAsyncKeyState(_) != 0`. -/
noncomputable def handleControls (p : Player) (deltaTime : ℝ) (map : List Char)
    (keyA keyD keyW keyS : Bool) : Player :=
  let a2 := turnedHeading p.a deltaTime keyA keyD
  let pw : Player :=
    if keyW then
      let xOffset := Real.sin a2 * 5 * deltaTime
      let yOffset := Real.cos a2 * 5 * deltaTime
      let x1 := p.x + xOffset
      let y1 := p.y + yOffset
      if is_wall map (toCellNat x1) (toCellNat y1) then
        ⟨x1 - xOffset, y1 - yOffset, a2⟩
      else ⟨x1, y1, a2⟩
    else ⟨p.x, p.y, a2⟩
  if keyS then
    let xOffset := Real.sin a2 * 5 * deltaTime
    let yOffset := Real.cos a2 * 5 * deltaTime
    let x1 := pw.x - xOffset
    let y1 := pw.y - yOffset
    if is_wall map (toCellNat x1) (toCellNat y1) then
      ⟨x1 + xOffset, y1 + yOffset, a2⟩
    else ⟨x1, y1, a2⟩
  else pw

/-! ## Minimap overlay (src/main.rs `draw_map` lines 126-137)

The shared screen buffer is modelled as an index-to-character-code
function; each `screen[(ny + 1) * SCREEN_WIDTH + nx] = ...` store is a
`Function.update`. -/

/-- `draw_map`: for every map cell `(nx, ny)` (nx outer, ny inner) write
`'P'` if it is the player's truncated cell, else the map glyph, at screen
index `(ny + 1) * SCREEN_WIDTH + nx`. -/
noncomputable def drawMap (screen : ℕ → ℕ) (player : Player) (map : List Char) :
    ℕ → ℕ :=
  (List.range MAP_WIDTH).foldl
    (fun s nx =>
      (List.range MAP_HEIGHT).foldl
        (fun s ny =>
          Function.update s ((ny + 1) * SCREEN_WIDTH + nx)
            (if toCellNat player.y = ny ∧ toCellNat player.x = nx then 'P'.toNat
             else (map.getD (ny * MAP_WIDTH + nx) '.').toNat))
        s)
    screen

/-! ## Boundary classification (src/main.rs `update_screen` lines 190-206)

On a wall hit at cell `(test_x, test_y)` the code builds, for the four
cell corners (`tx`, `ty` each `0..2`, `tx` outer), the pair
`(d, dot)` of the player-to-corner distance and the dot product of the
normalized corner vector with the eye direction, sorts the four pairs by
`d` ascending (`sort_by` on the first component; Rust's sort is stable,
as is `List.insertionSort`), and sets
`boundary = p[0].1.acos() < 0.01 || p[1].1.acos() < 0.01`. -/

noncomputable instance : DecidableRel (fun a b : ℝ × ℝ => a.1 ≤ b.1) :=
  fun a b => Real.decidableLE a.1 b.1

noncomputable instance : DecidableRel (fun a b : ℝ => a ≤ b) :=
  fun a b => Real.decidableLE a b

/-- The four `(d, dot)` corner pairs, in push order. -/
noncomputable def cornerPairs (px py ex ey : ℝ) (tX tY : ℤ) : List (ℝ × ℝ) :=
  (List.range 2).flatMap fun tx =>
    (List.range 2).map fun ty =>
      let vy : ℝ := (tY : ℝ) + (ty : ℝ) - py
      let vx : ℝ := (tX : ℝ) + (tx : ℝ) - px
      let d := Real.sqrt (vx * vx + vy * vy)
      (d, ex * vx / d + ey * vy / d)

/-- The corner pairs sorted by distance ascending
(`p.sort_by(|a, b| a.0.partial_cmp(&b.0) ...)`). -/
noncomputable def sortedCorners (px py ex ey : ℝ) (tX tY : ℤ) : List (ℝ × ℝ) :=
  List.insertionSort (fun a b => a.1 ≤ b.1) (cornerPairs px py ex ey tX tY)

/-- `boundary = p[0].1.acos() < bound || p[1].1.acos() < bound` with
`bound = 0.01`: the two corners *nearest to the player* are tested. -/
noncomputable def boundary (px py ex ey : ℝ) (tX tY : ℤ) : Prop :=
  Real.arccos ((sortedCorners px py ex ey tX tY).getD 0 (0, 0)).2 < 1/100 ∨
  Real.arccos ((sortedCorners px py ex ey tX tY).getD 1 (0, 0)).2 < 1/100

/-- The classification described by the specification: compute the four
corner *angles* `acos(dot)`, select the two smallest angles, and test
those against the `0.01` rad threshold. -/
noncomputable def boundarySpec (px py ex ey : ℝ) (tX tY : ℤ) : Prop :=
  let angles :=
    List.insertionSort (fun a b => a ≤ b)
      ((cornerPairs px py ex ey tX tY).map fun q => Real.arccos q.2)
  angles.getD 0 0 < 1/100 ∨ angles.getD 1 0 < 1/100

/-! ## Ray-march invariants -/

/-- Any distance the march returns is at least one step, and is either
exactly `DEPTH` or the accumulated distance of a wall sample. -/
lemma marchAux_some_spec (px py ex ey : ℚ) :
    ∀ (n : ℕ) (d r : ℚ), 0 ≤ d → marchAux px py ex ey n d = some r →
      1/10 ≤ r ∧ (r = DEPTH ∨
        is_wall gameMap (test_x px ex r).toNat (test_y py ey r).toNat = true) := by
  intro n
  induction n with
  | zero => intro d r _ h; simp [marchAux] at h
  | succ n ih =>
    intro d r hd h
    simp only [marchAux] at h
    split_ifs at h with h1 h2
    · refine ⟨?_, Or.inl (Option.some_injective _ h).symm⟩
      rw [← (Option.some_injective _ h)]
      norm_num [DEPTH]
    · refine ⟨?_, Or.inr ?_⟩
      · rw [← (Option.some_injective _ h)]; linarith
      · rw [← (Option.some_injective _ h)]; exact h2
    · exact ih (d + 1/10) r (by linarith) h

/-- If the march runs out of fuel, no iteration up to the fuel bound met a
break condition: every sampled cell was in bounds and open. -/
lemma marchAux_none_spec (px py ex ey : ℚ) :
    ∀ (n : ℕ) (d : ℚ), marchAux px py ex ey n d = none →
      ∀ k : ℕ, 1 ≤ k → k ≤ n →
        (0 ≤ test_x px ex (d + k/10) ∧ test_x px ex (d + k/10) < MAP_WIDTH ∧
         0 ≤ test_y py ey (d + k/10) ∧ test_y py ey (d + k/10) < MAP_HEIGHT) ∧
        is_wall gameMap (test_x px ex (d + k/10)).toNat
          (test_y py ey (d + k/10)).toNat = false := by
  intro n
  induction n with
  | zero => intro d _ k hk1 hk0; omega
  | succ n ih =>
    intro d h k hk1 hkn
    simp only [marchAux] at h
    split_ifs at h with h1 h2
    · match k, hk1 with
      | 1, _ =>
        push_neg at h1
        refine ⟨?_, ?_⟩
        · push_cast
          exact ⟨h1.1, h1.2.1, h1.2.2.1, h1.2.2.2⟩
        · simpa using h2
      | (j + 2), _ =>
        have hj : 1 ≤ j + 1 := by omega
        have hjn : j + 1 ≤ n := by omega
        have := ih (d + 1/10) h (j + 1) hj hjn
        have heq : d + 1/10 + ((j + 1 : ℕ) : ℚ)/10 = d + ((j + 2 : ℕ) : ℚ)/10 := by
          push_cast; ring
        rwa [heq] at this

/-- The map's open cells all lie strictly inside the border. -/
lemma gameMap_open_interior :
    ∀ i : ℕ, i < 16 → ∀ j : ℕ, j < 16 →
      is_wall gameMap i j = false → 1 ≤ i ∧ i ≤ 14 ∧ 1 ≤ j ∧ j ≤ 14 := by
  decide

/-- A truncated-toward-zero value that is at least `1` brackets its
argument as an ordinary floor does. -/
lemma truncI_bounds {q : ℚ} (h : 1 ≤ truncI q) :
    (truncI q : ℚ) ≤ q ∧ q < truncI q + 1 := by
  unfold truncI at *
  split_ifs at * with hq
  · exfalso
    have h0 : (0:ℤ) ≤ ⌊-q⌋ := Int.floor_nonneg.mpr (by linarith)
    omega
  · exact ⟨Int.floor_le q, Int.lt_floor_add_one q⟩

/-- C1 (amended): every distance the ray march reports is strictly
positive, and a march that exits because the sampled point left the map
bounds reports exactly `DEPTH`; equivalently, any reported distance other
than `DEPTH` is the accumulated distance of a genuine wall sample.  (The
original claim's bound `r ≤ DEPTH` for wall hits is refuted by
`rayMarch_can_exceed_depth`.) -/
theorem rayMarch_pos_and_saturates (fuel : ℕ) (px py ex ey r : ℚ)
    (h : rayMarch fuel px py ex ey = some r) :
    0 < r ∧ (r = DEPTH ∨
      is_wall gameMap (test_x px ex r).toNat (test_y py ey r).toNat = true) := by
  have := marchAux_some_spec px py ex ey fuel 0 r le_rfl h
  exact ⟨by linarith [this.1], this.2⟩

/-- C1 counterexample: from the open cell `(1.5, 14.5)` with the unit eye
direction `(0.6, -0.8)` the march hits the border wall row at distance
`16.9 > DEPTH`: a wall-hit distance is *not* capped at `DEPTH`. -/
theorem rayMarch_can_exceed_depth :
    rayMarch 200 (3/2) (29/2) (3/5) (-(4/5)) = some (169/10) ∧
    (3/5 : ℚ) * (3/5) + (-(4/5 : ℚ)) * (-(4/5)) = 1 ∧
    is_wall gameMap 1 14 = false ∧
    ¬((169/10 : ℚ) ≤ DEPTH) := by
  refine ⟨by decide, by norm_num, by decide, by norm_num [DEPTH]⟩

/-- C1 witness: a straight-ahead march from `(8, 8)` eastward hits the
border at distance `7`. -/
theorem rayMarch_pos_and_saturates_witness :
    rayMarch 80 8 8 1 0 = some 7 ∧
    (0 < (7:ℚ) ∧ ((7:ℚ) = DEPTH ∨
      is_wall gameMap (test_x 8 1 7).toNat (test_y 8 0 7).toNat = true)) :=
  ⟨by decide, rayMarch_pos_and_saturates 80 8 8 1 0 7 (by decide)⟩

/-- C2 (amended): for any player position strictly inside the map extent
and any unit eye direction, the march exits within `227` iterations — the
first iteration count whose accumulated distance `22.7` exceeds the map
diagonal `16 * sqrt 2 ≈ 22.63`.  The map diagonal, not `DEPTH`, bounds the
walk; the claimed `161` is refuted by `rayMarch_not_done_at_161`. -/
theorem rayMarch_terminates (px py ex ey : ℚ)
    (hx0 : 0 < px) (hx1 : px < 16) (hy0 : 0 < py) (hy1 : py < 16)
    (hunit : ex * ex + ey * ey = 1) :
    ∃ r, rayMarch 227 px py ex ey = some r := by
  cases hmr : rayMarch 227 px py ex ey with
  | some r => exact ⟨r, rfl⟩
  | none =>
    exfalso
    have hnb := marchAux_none_spec px py ex ey 227 0 hmr 227 (by norm_num) le_rfl
    have hcast : (0:ℚ) + ((227:ℕ):ℚ)/10 = 227/10 := by push_cast; ring
    rw [hcast] at hnb
    obtain ⟨⟨htx0, htx1, hty0, hty1⟩, hopen⟩ := hnb
    have hxlt : (test_x px ex (227/10)).toNat < 16 := by
      simp only [MAP_WIDTH] at htx1; omega
    have hylt : (test_y py ey (227/10)).toNat < 16 := by
      simp only [MAP_HEIGHT] at hty1; omega
    have hint := gameMap_open_interior _ hxlt _ hylt hopen
    have hx1' : 1 ≤ test_x px ex (227/10) := by omega
    have hy1' : 1 ≤ test_y py ey (227/10) := by omega
    have hbx := truncI_bounds hx1'
    have hby := truncI_bounds hy1'
    have hx14 : test_x px ex (227/10) ≤ 14 := by omega
    have hy14 : test_y py ey (227/10) ≤ 14 := by omega
    unfold test_x at hx1' hx14
    unfold test_y at hy1' hy14
    unfold test_x at hbx
    unfold test_y at hby
    have hXlo : (1:ℚ) ≤ px + ex * (227/10) :=
      le_trans (by exact_mod_cast hx1') hbx.1
    have hXhi : px + ex * (227/10) < 15 := by
      have h15 : ((truncI (px + ex * (227/10)) : ℚ)) + 1 ≤ 15 := by
        exact_mod_cast by omega
      linarith [hbx.2]
    have hYlo : (1:ℚ) ≤ py + ey * (227/10) :=
      le_trans (by exact_mod_cast hy1') hby.1
    have hYhi : py + ey * (227/10) < 15 := by
      have h15 : ((truncI (py + ey * (227/10)) : ℚ)) + 1 ≤ 15 := by
        exact_mod_cast by omega
      linarith [hby.2]
    have ha : ex * (227/10) < 15 := by linarith
    have hb : -15 < ex * (227/10) := by linarith
    have hc : ey * (227/10) < 15 := by linarith
    have he : -15 < ey * (227/10) := by linarith
    have h1 : (ex * (227/10)) * (ex * (227/10)) < 225 := by
      nlinarith [mul_pos (by linarith : (0:ℚ) < 15 - ex * (227/10))
        (by linarith : (0:ℚ) < 15 + ex * (227/10))]
    have h2 : (ey * (227/10)) * (ey * (227/10)) < 225 := by
      nlinarith [mul_pos (by linarith : (0:ℚ) < 15 - ey * (227/10))
        (by linarith : (0:ℚ) < 15 + ey * (227/10))]
    nlinarith [hunit, h1, h2]

/-- C2 counterexample: with the valid interior position `(1.5, 14.5)` and
unit direction `(0.6, -0.8)` the loop is still running after 161
iterations. -/
theorem rayMarch_not_done_at_161 :
    rayMarch 161 (3/2) (29/2) (3/5) (-(4/5)) = none ∧
    (0 < (3/2:ℚ) ∧ (3/2:ℚ) < 16 ∧ 0 < (29/2:ℚ) ∧ (29/2:ℚ) < 16) ∧
    (3/5 : ℚ) * (3/5) + (-(4/5 : ℚ)) * (-(4/5)) = 1 := by
  exact ⟨by decide, by norm_num, by norm_num⟩

/-- C2 witness: the bound applies to the straight-ahead ray at `(8, 8)`. -/
theorem rayMarch_terminates_witness :
    ∃ r, rayMarch 227 8 8 0 1 = some r :=
  rayMarch_terminates 8 8 0 1 (by norm_num) (by norm_num) (by norm_num)
    (by norm_num) (by norm_num)

/-- C10: the first step is added before any sample is tested, so every
reported distance is at least `0.1`; in particular it is nonzero, so the
ceiling-row computation `H/2 - H/distance` never divides by zero. -/
theorem rayMarch_distance_ge_step (fuel : ℕ) (px py ex ey r : ℚ)
    (h : rayMarch fuel px py ex ey = some r) : 1/10 ≤ r ∧ r ≠ 0 := by
  have := marchAux_some_spec px py ex ey fuel 0 r le_rfl h
  exact ⟨this.1, by linarith [this.1]⟩

/-- C10 witness: the southward ray from `(8, 8)` reports `4 ≥ 0.1`. -/
theorem rayMarch_distance_ge_step_witness :
    rayMarch 50 8 8 0 1 = some 4 ∧ (1/10 ≤ (4:ℚ) ∧ (4:ℚ) ≠ 0) :=
  ⟨by decide, rayMarch_distance_ge_step 50 8 8 0 1 4 (by decide)⟩

/-! ## Frame-compositor row banding -/

/-- Truncation toward zero respects strict upper bounds by positive
integers. -/
lemma truncI_lt_of_lt {q : ℚ} {z : ℤ} (hz : 0 < z) (h : q < z) :
    truncI q < z := by
  unfold truncI
  split_ifs with hq
  · have h0 : (0:ℤ) ≤ ⌊-q⌋ := Int.floor_nonneg.mpr (by linarith)
    omega
  · exact Int.floor_lt.mpr (by exact_mod_cast h)

/-- For any positive distance the ceiling row is at most `19`. -/
lemma ceilingRow_le (d : ℚ) (hd : 0 < d) : ceilingRow d ≤ 19 := by
  have h40 : (0:ℚ) < (SCREEN_HEIGHT : ℚ) / d := by
    apply div_pos _ hd
    simp [SCREEN_HEIGHT]
  have : (SCREEN_HEIGHT : ℚ) / 2 - (SCREEN_HEIGHT : ℚ) / d < 20 := by
    have : ((SCREEN_HEIGHT : ℕ) : ℚ) = 40 := by norm_num [SCREEN_HEIGHT]
    rw [this] at h40 ⊢
    linarith
  have := truncI_lt_of_lt (z := 20) (by norm_num) this
  unfold ceilingRow
  omega

/-- C5: the row `y` exactly equal to the ceiling row satisfies neither the
sky test `y < ceiling` nor the wall test `y > ceiling && y <= floor`, so it
falls into the floor arm; there `floor_distance ≥ 1.05 > 0.9`, which
renders the blank sky glyph — the boundary row looks exactly like the
ceiling. -/
theorem ceilingRow_renders_blank (d : ℚ) (b : Bool) (y : ℤ)
    (hd : 0 < d) (hy : y = ceilingRow d) : renderCell d b y = ' '.toNat := by
  subst hy
  have h19 : ceilingRow d ≤ 19 := ceilingRow_le d hd
  unfold renderCell
  rw [if_neg (lt_irrefl _), if_neg (by simp)]
  unfold floorGlyph
  have hfd : 9/10 ≤ floorDistance (ceilingRow d) := by
    unfold floorDistance
    have hc : ((ceilingRow d : ℚ)) ≤ 19 := by exact_mod_cast h19
    have h40 : ((SCREEN_HEIGHT : ℕ) : ℚ) = 40 := by norm_num [SCREEN_HEIGHT]
    rw [h40]
    linarith
  rw [if_neg (by linarith), if_neg (by linarith), if_neg (by linarith),
    if_neg (by linarith)]

/-- C5 witness: at distance `4` the ceiling row is `10`, and row `10` of
such a column is blank. -/
theorem ceilingRow_renders_blank_witness :
    (0:ℚ) < 4 ∧ (10:ℤ) = ceilingRow 4 ∧ renderCell 4 false 10 = ' '.toNat :=
  ⟨by norm_num, by decide, ceilingRow_renders_blank 4 false 10 (by norm_num) (by decide)⟩

/-- C6 counterexample: `floor_distance` is `1` at the horizon row
`y = 20 = screenHeight/2` (not `0` as claimed) and `1/20` at the bottom
row `y = 39` (not `1`): the claimed range direction is inverted. -/
theorem floorDistance_range_reversed :
    floorDistance 20 = 1 ∧ floorDistance 20 ≠ 0 ∧
    floorDistance 39 = 1/20 ∧ floorDistance 39 ≠ 1 := by
  refine ⟨by decide, by decide, by decide, by decide⟩

/-- C6 (amended): `floor_distance = 1 - (y - H/2)/(H/2)` *decreases* from
`1` at the horizon row `y = 20` to `1/20` at the bottom row `y = 39`, and
the floor glyph is picked by the ascending threshold buckets
`<0.25 → '#'`, `<0.5 → 'x'`, `<0.75 → '-'`, `<0.9 → '.'`, else blank
(so rows 20-22 blank, 23-25 `'.'`, 26-30 `'-'`, 31-35 `'x'`, 36-39 `'#'`). -/
theorem floor_gradient (y1 y2 : ℤ) (h20 : 20 ≤ y1) (h12 : y1 ≤ y2) :
    floorDistance 20 = 1 ∧ floorDistance 39 = 1/20 ∧
    floorDistance y2 ≤ floorDistance y1 ∧
    (∀ y : ℕ, y ≤ 39 → 20 ≤ y →
      floorGlyph y = if y ≤ 22 then ' '.toNat else if y ≤ 25 then '.'.toNat
        else if y ≤ 30 then '-'.toNat else if y ≤ 35 then 'x'.toNat
        else '#'.toNat) := by
  refine ⟨by decide, by decide, ?_, by decide⟩
  unfold floorDistance
  have hc : ((y1 : ℚ)) ≤ (y2 : ℚ) := by exact_mod_cast h12
  have h40 : ((SCREEN_HEIGHT : ℕ) : ℚ) = 40 := by norm_num [SCREEN_HEIGHT]
  rw [h40]
  linarith

/-- C6 witness: the gradient facts applied at rows 25, 39 and 37. -/
theorem floor_gradient_witness :
    floorDistance 39 ≤ floorDistance 25 ∧ floorGlyph 37 = '#'.toNat :=
  ⟨(floor_gradient 25 39 (by norm_num) (by norm_num)).2.2.1,
   by
    have h := (floor_gradient 25 39 (by norm_num) (by norm_num)).2.2.2 37
      (by norm_num) (by norm_num)
    simpa using h⟩

/-- The "density" rank of the wall shade glyphs, densest block first. -/
def glyphDensity (c : ℕ) : ℕ :=
  if c = '█'.toNat then 4
  else if c = '▓'.toNat then 3
  else if c = '▒'.toNat then 2
  else if c = '░'.toNat then 1
  else 0

/-- C8: for a fixed non-boundary wall column the shade choice is monotone:
a larger distance never selects a denser glyph. -/
theorem shadeGlyph_monotone (d1 d2 : ℚ) (h : d1 ≤ d2) :
    glyphDensity (shadeGlyph d2) ≤ glyphDensity (shadeGlyph d1) := by
  unfold shadeGlyph
  simp only [DEPTH]
  split_ifs <;> first
    | decide
    | (exfalso; linarith)

/-- C8 witness: the monotonicity applied at distances `3 ≤ 10`. -/
theorem shadeGlyph_monotone_witness :
    (3:ℚ) ≤ 10 ∧ glyphDensity (shadeGlyph 10) ≤ glyphDensity (shadeGlyph 3) :=
  ⟨by norm_num, shadeGlyph_monotone 3 10 (by norm_num)⟩

/-! ## Screen-buffer size and terminator -/

/-- C7 counterexample: `init_screen` pushes over the *inclusive* range
`0..=SCREEN_SIZE`, so the buffer holds `4801` cells, not
`screenWidth*screenHeight = 4800`. -/
theorem initScreen_length_off_by_one :
    initScreen.length ≠ SCREEN_WIDTH * SCREEN_HEIGHT ∧
    initScreen.length = SCREEN_WIDTH * SCREEN_HEIGHT + 1 := by
  unfold initScreen
  rw [List.length_replicate]
  constructor
  · norm_num [SCREEN_SIZE, SCREEN_WIDTH, SCREEN_HEIGHT]
  · rfl

/-- C7 (amended): the buffer is allocated with `SCREEN_SIZE + 1 = 4801`
cells (an off-by-one of the inclusive push loop), and before every handoff
`draw_screen_to_console` sets index `SCREEN_SIZE - 1 = 4799` — the last
cell of the `SCREEN_SIZE`-long region the presenter reads — to the null
terminator, leaving the length unchanged. -/
theorem screen_buffer_terminator (buf : List ℕ)
    (h : buf.length = SCREEN_SIZE + 1) :
    initScreen.length = SCREEN_SIZE + 1 ∧
    (drawScreenToConsole buf).length = SCREEN_SIZE + 1 ∧
    (drawScreenToConsole buf).getD (SCREEN_SIZE - 1) 1 = 0 := by
  refine ⟨by unfold initScreen; rw [List.length_replicate], ?_, ?_⟩
  · unfold drawScreenToConsole
    rw [List.length_set, h]
  · unfold drawScreenToConsole
    rw [List.getD_eq_getElem?_getD, List.getElem?_set_self',
      List.getElem?_eq_getElem
        (by rw [h]; norm_num [SCREEN_SIZE, SCREEN_WIDTH, SCREEN_HEIGHT])]
    simp

/-- C7 witness: the terminator write applied to the initial buffer. -/
theorem screen_buffer_terminator_witness :
    (drawScreenToConsole initScreen).getD (SCREEN_SIZE - 1) 1 = 0 :=
  (screen_buffer_terminator initScreen
    (by unfold initScreen; rw [List.length_replicate])).2.2

/-! ## Minimap read-back

A written loop of `Function.update` stores at pairwise-distinct indices is
read back pointwise. -/

/-- Folding stores at indices `f 0, ..., f (n-1)` over a buffer and
reading back at `f k` yields the stored value when `f` is injective on the
range. -/
lemma foldl_update_at (f v : ℕ → ℕ) :
    ∀ n k : ℕ, k < n →
      (∀ i j, i < n → j < n → f i = f j → i = j) →
      ∀ s : ℕ → ℕ,
        ((List.range n).foldl (fun s i => Function.update s (f i) (v i)) s)
          (f k) = v k := by
  intro n
  induction n with
  | zero => intro k hk; omega
  | succ n ih =>
    intro k hk hinj s
    rw [List.range_succ, List.foldl_append, List.foldl_cons, List.foldl_nil]
    by_cases hkn : k = n
    · subst hkn
      rw [Function.update_same]
    · have hk' : k < n := by omega
      rw [Function.update_noteq
        (fun heq => hkn (hinj k n (by omega) (by omega) heq))]
      exact ih k hk' (fun i j hi hj => hinj i j (by omega) (by omega)) s

/-- Reading a position none of the stores touches returns the original
buffer value. -/
lemma foldl_update_away (f v : ℕ → ℕ) :
    ∀ n j : ℕ, (∀ i, i < n → f i ≠ j) →
      ∀ s : ℕ → ℕ,
        ((List.range n).foldl (fun s i => Function.update s (f i) (v i)) s)
          j = s j := by
  intro n
  induction n with
  | zero => intro j _ s; simp
  | succ n ih =>
    intro j hne s
    rw [List.range_succ, List.foldl_append, List.foldl_cons, List.foldl_nil]
    rw [Function.update_noteq (fun heq => hne n (by omega) heq.symm)]
    exact ih j (fun i hi => hne i (by omega)) s

/-- If exactly the `i0`-th step of an iterated buffer transformation
determines position `j` and every other step leaves `j` alone, the fold
reads back the determined value at `j`. -/
lemma foldl_step_const (g : ℕ → (ℕ → ℕ) → ℕ → ℕ) (j V i0 : ℕ)
    (hset : ∀ s, g i0 s j = V) :
    ∀ n : ℕ, i0 < n →
      (∀ i s, i < n → i ≠ i0 → g i s j = s j) →
      ∀ s : ℕ → ℕ,
        ((List.range n).foldl (fun s i => g i s) s) j = V := by
  intro n
  induction n with
  | zero => intro h; omega
  | succ n ih =>
    intro hi0 hskip s
    rw [List.range_succ, List.foldl_append, List.foldl_cons, List.foldl_nil]
    by_cases hn : i0 = n
    · subst hn
      exact hset _
    · rw [hskip n _ (by omega) (fun h => hn h.symm)]
      exact ih (by omega) (fun i s hi hne => hskip i s (by omega) hne) s

/-- C9: `draw_map` writes, for every map cell `(nx, ny)`, screen index
`(ny + 1) * SCREEN_WIDTH + nx` with the map glyph, except the player's
truncated cell which receives `'P'`; with the player at `(8.0, 8.0)` the
`'P'` appears at map cell `(8, 8)` and nowhere else. -/
theorem minimap_overlay :
    (∀ (p : Player) (s : ℕ → ℕ) (nx ny : ℕ), nx < MAP_WIDTH → ny < MAP_HEIGHT →
      drawMap s p gameMap ((ny + 1) * SCREEN_WIDTH + nx)
        = if toCellNat p.y = ny ∧ toCellNat p.x = nx then 'P'.toNat
          else (gameMap.getD (ny * MAP_WIDTH + nx) '.').toNat) ∧
    (∀ (s : ℕ → ℕ) (nx ny : ℕ), nx < MAP_WIDTH → ny < MAP_HEIGHT →
      (drawMap s ⟨8, 8, 0⟩ gameMap ((ny + 1) * SCREEN_WIDTH + nx) = 'P'.toNat ↔
        nx = 8 ∧ ny = 8)) := by
  have hmain : ∀ (p : Player) (s : ℕ → ℕ) (nx ny : ℕ),
      nx < MAP_WIDTH → ny < MAP_HEIGHT →
      drawMap s p gameMap ((ny + 1) * SCREEN_WIDTH + nx)
        = if toCellNat p.y = ny ∧ toCellNat p.x = nx then 'P'.toNat
          else (gameMap.getD (ny * MAP_WIDTH + nx) '.').toNat := by
    intro p s nx ny hnx hny
    unfold drawMap
    refine foldl_step_const _ ((ny + 1) * SCREEN_WIDTH + nx)
      (if toCellNat p.y = ny ∧ toCellNat p.x = nx then 'P'.toNat
       else (gameMap.getD (ny * MAP_WIDTH + nx) '.').toNat) nx
      ?_ MAP_WIDTH hnx ?_ s
    · intro s'
      refine foldl_update_at (fun ny' => (ny' + 1) * SCREEN_WIDTH + nx)
        (fun ny' => if toCellNat p.y = ny' ∧ toCellNat p.x = nx then 'P'.toNat
          else (gameMap.getD (ny' * MAP_WIDTH + nx) '.').toNat)
        MAP_HEIGHT ny hny ?_ s'
      intro i j hi hj heq
      simp only [SCREEN_WIDTH] at heq
      omega
    · intro i s' hi hne
      refine foldl_update_away (fun ny' => (ny' + 1) * SCREEN_WIDTH + i)
        (fun ny' => if toCellNat p.y = ny' ∧ toCellNat p.x = i then 'P'.toNat
          else (gameMap.getD (ny' * MAP_WIDTH + i) '.').toNat)
        MAP_HEIGHT ((ny + 1) * SCREEN_WIDTH + nx) ?_ s'
      intro i2 hi2 heq
      simp only [SCREEN_WIDTH, MAP_WIDTH, MAP_HEIGHT] at heq hi hnx hny hi2
      omega
  refine ⟨hmain, ?_⟩
  intro s nx ny hnx hny
  have h8 : toCellNat (8:ℝ) = 8 := by
    unfold toCellNat
    rw [show ((8:ℝ)) = ((8:ℤ):ℝ) by norm_num, Int.floor_intCast]
    rfl
  rw [hmain ⟨8, 8, 0⟩ s nx ny hnx hny]
  have hglyph : ∀ nx' : ℕ, nx' < 16 → ∀ ny' : ℕ, ny' < 16 →
      (gameMap.getD (ny' * MAP_WIDTH + nx') '.').toNat ≠ 'P'.toNat := by decide
  simp only [h8]
  by_cases hcell : (8 : ℕ) = ny ∧ (8 : ℕ) = nx
  · rw [if_pos hcell]
    simp [hcell.1.symm, hcell.2.symm]
  · rw [if_neg hcell]
    simp only [MAP_WIDTH, MAP_HEIGHT] at hnx hny
    constructor
    · intro hglyph'
      exact absurd hglyph' (hglyph nx hnx ny hny)
    · intro hc
      exact absurd ⟨hc.2.symm, hc.1.symm⟩ hcell

/-- C9 witness: with the player at `(8, 8)`, screen index
`(8 + 1) * SCREEN_WIDTH + 8` holds `'P'`. -/
theorem minimap_overlay_witness :
    drawMap (fun i => 0) ⟨8, 8, 0⟩ gameMap ((8 + 1) * SCREEN_WIDTH + 8)
      = 'P'.toNat :=
  (minimap_overlay.2 (fun i => 0) 8 8 (by norm_num [MAP_WIDTH])
    (by norm_num [MAP_HEIGHT])).mpr ⟨rfl, rfl⟩

/-! ## Collision rejection -/

/-- C4: whenever a tentative forward or backward move lands in a wall cell
(tested at the truncated cell of the new position), `handle_controls`
leaves the position exactly where it was — the offset is added and then
subtracted again — while the heading change from turning is still applied.
The hypotheses cover the pressed movement keys; when both `'W'` and `'S'`
are held, the `'S'` tentative starts from the already-reverted position. -/
theorem collision_rejection (p : Player) (dt : ℝ) (kA kD kW kS : Bool)
    (hW : kW = true →
      is_wall gameMap
        (toCellNat (p.x + Real.sin (turnedHeading p.a dt kA kD) * 5 * dt))
        (toCellNat (p.y + Real.cos (turnedHeading p.a dt kA kD) * 5 * dt)) = true)
    (hS : kS = true →
      is_wall gameMap
        (toCellNat (p.x - Real.sin (turnedHeading p.a dt kA kD) * 5 * dt))
        (toCellNat (p.y - Real.cos (turnedHeading p.a dt kA kD) * 5 * dt)) = true) :
    handleControls p dt gameMap kA kD kW kS
      = ⟨p.x, p.y, turnedHeading p.a dt kA kD⟩ := by
  cases kW with
  | false =>
    cases kS with
    | false => simp [handleControls]
    | true =>
      have hS' := hS rfl
      simp only [handleControls, if_false, Bool.false_eq_true, if_true]
      rw [if_pos hS']
      simp only [Player.mk.injEq]
      refine ⟨by ring, by ring, trivial⟩
  | true =>
    have hW' := hW rfl
    cases kS with
    | false =>
      simp only [handleControls, if_true, Bool.false_eq_true, if_false]
      rw [if_pos hW']
      simp only [Player.mk.injEq]
      refine ⟨by ring, by ring, trivial⟩
    | true =>
      have hS' := hS rfl
      simp only [handleControls, if_true]
      rw [if_pos hW']
      have hx : p.x + Real.sin (turnedHeading p.a dt kA kD) * 5 * dt -
          Real.sin (turnedHeading p.a dt kA kD) * 5 * dt = p.x := by ring
      have hy : p.y + Real.cos (turnedHeading p.a dt kA kD) * 5 * dt -
          Real.cos (turnedHeading p.a dt kA kD) * 5 * dt = p.y := by ring
      rw [hx, hy, if_pos hS']
      simp only [Player.mk.injEq]
      refine ⟨by ring, by ring, trivial⟩

/-- C4 witness: at `(8.5, 9.7)` heading `0`, a forward step of `2.5` lands
in the wall cell `(8, 12)`, and the update leaves the player in place. -/
theorem collision_rejection_witness :
    handleControls ⟨17/2, 97/10, 0⟩ (1/2) gameMap false false true false
      = ⟨17/2, 97/10, turnedHeading 0 (1/2) false false⟩ := by
  have ht : turnedHeading (0:ℝ) (1/2) false false = 0 := by
    simp [turnedHeading]
  refine collision_rejection ⟨17/2, 97/10, 0⟩ (1/2) false false true false ?_ ?_
  · intro _
    show is_wall gameMap
      (toCellNat ((17/2 : ℝ) +
        Real.sin (turnedHeading 0 (1/2) false false) * 5 * (1/2)))
      (toCellNat ((97/10 : ℝ) +
        Real.cos (turnedHeading 0 (1/2) false false) * 5 * (1/2))) = true
    rw [ht]
    simp only [Real.sin_zero, Real.cos_zero]
    have hx : (17/2 : ℝ) + 0 * 5 * (1/2) = 17/2 := by ring
    have hy : (97/10 : ℝ) + 1 * 5 * (1/2) = 61/5 := by ring
    rw [hx, hy]
    have fx : ⌊(17/2 : ℝ)⌋ = 8 := by
      rw [Int.floor_eq_iff] <;> norm_num
    have fy : ⌊(61/5 : ℝ)⌋ = 12 := by
      rw [Int.floor_eq_iff] <;> norm_num
    unfold toCellNat
    rw [fx, fy]
    decide
  · intro h
    exact absurd h (by decide)

/-! ## Boundary classification: the code sorts by distance, not by angle -/

/-- Comparison of products with square roots via squares, non-strict
form. -/
lemma mul_sqrt_le {a b u v : ℝ} (ha : 0 ≤ a) (hb : 0 ≤ b)
    (h : a^2 * v ≤ b^2 * u) : a * Real.sqrt v ≤ b * Real.sqrt u := by
  have h1 : Real.sqrt (a^2 * v) ≤ Real.sqrt (b^2 * u) := Real.sqrt_le_sqrt h
  rwa [Real.sqrt_mul (sq_nonneg a), Real.sqrt_mul (sq_nonneg b),
    Real.sqrt_sq ha, Real.sqrt_sq hb] at h1

/-- Comparison of products with square roots via squares, strict form. -/
lemma mul_sqrt_lt {a b u v : ℝ} (ha : 0 ≤ a) (hb : 0 ≤ b) (hv : 0 ≤ v)
    (h : a^2 * v < b^2 * u) : a * Real.sqrt v < b * Real.sqrt u := by
  have h1 : Real.sqrt (a^2 * v) < Real.sqrt (b^2 * u) :=
    Real.sqrt_lt_sqrt (by positivity) h
  rwa [Real.sqrt_mul (sq_nonneg a), Real.sqrt_mul (sq_nonneg b),
    Real.sqrt_sq ha, Real.sqrt_sq hb] at h1

/-- A dot product at most `cos 0.01` has angle at least `0.01`. -/
lemma arccos_threshold {x : ℝ} (h0 : 0 ≤ x) (hc : x ≤ Real.cos (1/100)) :
    ¬ Real.arccos x < 1/100 := by
  intro hlt
  have hpi : (1/100 : ℝ) ≤ Real.pi := by linarith [Real.pi_gt_three]
  have hx1 : x ≤ 1 := le_trans hc (Real.cos_le_one _)
  have h1 : Real.cos (1/100) < Real.cos (Real.arccos x) :=
    Real.cos_lt_cos_of_nonneg_of_le_pi (Real.arccos_nonneg x) hpi hlt
  rw [Real.cos_arccos (by linarith) hx1] at h1
  linarith

lemma cos_threshold : (9999/10000 : ℝ) ≤ Real.cos (1/100) := by
  have h := Real.one_sub_sq_div_two_le_cos (x := 1/100)
  norm_num at h
  linarith

lemma sqrt254 : Real.sqrt (25/4) = 5/2 := by
  rw [show (25/4 : ℝ) = (5/2)^2 by norm_num, Real.sqrt_sq (by norm_num)]

/-- The corner pairs at the scenario: player `(10.5, 2)`, eye
`(0.6, 0.8)`, hit cell `(11, 3)`. -/
lemma cornerPairs_eval :
    cornerPairs (21/2) 2 (3/5) (4/5) 11 3 =
      [(Real.sqrt (5/4), (11/10) / Real.sqrt (5/4)),
       (Real.sqrt (17/4), (19/10) / Real.sqrt (17/4)),
       (Real.sqrt (13/4), (17/10) / Real.sqrt (13/4)),
       (5/2, 1)] := by
  unfold cornerPairs
  rw [show List.range 2 = [0, 1] from rfl]
  simp only [List.flatMap_cons, List.map_cons, List.map_nil, List.flatMap_nil,
    List.append_nil, List.cons_append, List.nil_append]
  norm_num [div_add_div_same, sqrt254, -Real.sqrt_div, -Real.sqrt_div']

lemma sqrt134 : Real.sqrt (13/4) ≤ 5/2 := by
  rw [← sqrt254]
  exact Real.sqrt_le_sqrt (by norm_num)

lemma sqrt174 : Real.sqrt (17/4) ≤ 5/2 := by
  rw [← sqrt254]
  exact Real.sqrt_le_sqrt (by norm_num)

/-- The stable sort by distance puts the two *nearest* corners first; the
corner `(12, 4)` dead on the ray (dot `1`) sorts last. -/
lemma sortedCorners_eval :
    sortedCorners (21/2) 2 (3/5) (4/5) 11 3 =
      [(Real.sqrt (5/4), (11/10) / Real.sqrt (5/4)),
       (Real.sqrt (13/4), (17/10) / Real.sqrt (13/4)),
       (Real.sqrt (17/4), (19/10) / Real.sqrt (17/4)),
       (5/2, 1)] := by
  unfold sortedCorners
  rw [cornerPairs_eval]
  have s2 : ¬(Real.sqrt (17/4) ≤ Real.sqrt (13/4)) :=
    not_le.mpr (Real.sqrt_lt_sqrt (by norm_num) (by norm_num))
  have s4 : Real.sqrt (5/4) ≤ Real.sqrt (13/4) := Real.sqrt_le_sqrt (by norm_num)
  simp [List.insertionSort, List.orderedInsert, sqrt134, sqrt174, s2, s4,
    -Real.sqrt_div, -Real.sqrt_div']

lemma dot_A_le : (11/10) / Real.sqrt (5/4) ≤ 9999/10000 := by
  rw [div_le_iff₀ (by positivity)]
  have h := mul_sqrt_le (a := 11/10) (b := 9999/10000) (u := 5/4) (v := 1)
    (by norm_num) (by norm_num) (by norm_num)
  rwa [Real.sqrt_one, mul_one] at h

lemma dot_C_le : (17/10) / Real.sqrt (13/4) ≤ 9999/10000 := by
  rw [div_le_iff₀ (by positivity)]
  have h := mul_sqrt_le (a := 17/10) (b := 9999/10000) (u := 13/4) (v := 1)
    (by norm_num) (by norm_num) (by norm_num)
  rwa [Real.sqrt_one, mul_one] at h

/-- The code's classification at the scenario: both of the two nearest
corners have angles well above `0.01` rad, so `boundary = false`. -/
lemma not_boundary_cex : ¬ boundary (21/2) 2 (3/5) (4/5) 11 3 := by
  unfold boundary
  rw [sortedCorners_eval]
  simp only [List.getD_cons_zero, List.getD_cons_succ]
  rintro (h | h)
  · exact arccos_threshold (by positivity) (le_trans dot_A_le cos_threshold) h
  · exact arccos_threshold (by positivity) (le_trans dot_C_le cos_threshold) h

/-- The specification's classification at the scenario: the smallest
corner angle is `acos 1 = 0 < 0.01` (the far corner `(12, 4)` lies dead on
the ray), so the two-smallest-angles rule reports a boundary. -/
lemma boundarySpec_cex : boundarySpec (21/2) 2 (3/5) (4/5) 11 3 := by
  unfold boundarySpec
  rw [cornerPairs_eval]
  have hA1 : (11/10) / Real.sqrt (5/4) < 1 := by
    rw [div_lt_one (by positivity)]
    exact (Real.lt_sqrt (by norm_num)).mpr (by norm_num)
  have hB1 : (19/10) / Real.sqrt (17/4) < 1 := by
    rw [div_lt_one (by positivity)]
    exact (Real.lt_sqrt (by norm_num)).mpr (by norm_num)
  have hC1 : (17/10) / Real.sqrt (13/4) < 1 := by
    rw [div_lt_one (by positivity)]
    exact (Real.lt_sqrt (by norm_num)).mpr (by norm_num)
  have hBC : (19/10) / Real.sqrt (17/4) < (17/10) / Real.sqrt (13/4) := by
    rw [div_lt_div_iff₀ (by positivity) (by positivity)]
    exact mul_sqrt_lt (by norm_num) (by norm_num) (by norm_num) (by norm_num)
  have hCA : (17/10) / Real.sqrt (13/4) ≤ (11/10) / Real.sqrt (5/4) := by
    rw [div_le_div_iff₀ (by positivity) (by positivity)]
    exact mul_sqrt_le (by norm_num) (by norm_num) (by norm_num)
  have memA : (11/10) / Real.sqrt (5/4) ∈ Set.Icc (-1 : ℝ) 1 :=
    ⟨le_trans (by norm_num) (by positivity : (0:ℝ) ≤ (11/10) / Real.sqrt (5/4)),
     le_of_lt hA1⟩
  have memB : (19/10) / Real.sqrt (17/4) ∈ Set.Icc (-1 : ℝ) 1 :=
    ⟨le_trans (by norm_num) (by positivity : (0:ℝ) ≤ (19/10) / Real.sqrt (17/4)),
     le_of_lt hB1⟩
  have memC : (17/10) / Real.sqrt (13/4) ∈ Set.Icc (-1 : ℝ) 1 :=
    ⟨le_trans (by norm_num) (by positivity : (0:ℝ) ≤ (17/10) / Real.sqrt (13/4)),
     le_of_lt hC1⟩
  have t2 : ¬(Real.arccos ((17/10) / Real.sqrt (13/4)) ≤ Real.arccos 1) := by
    rw [Real.arccos_one]
    exact not_le.mpr (Real.arccos_pos.mpr hC1)
  have t3a : ¬(Real.arccos ((19/10) / Real.sqrt (17/4)) ≤ Real.arccos 1) := by
    rw [Real.arccos_one]
    exact not_le.mpr (Real.arccos_pos.mpr hB1)
  have t3b : ¬(Real.arccos ((19/10) / Real.sqrt (17/4)) ≤
      Real.arccos ((17/10) / Real.sqrt (13/4))) :=
    not_le.mpr (Real.strictAntiOn_arccos memB memC hBC)
  have t4a : ¬(Real.arccos ((11/10) / Real.sqrt (5/4)) ≤ Real.arccos 1) := by
    rw [Real.arccos_one]
    exact not_le.mpr (Real.arccos_pos.mpr hA1)
  have t4b : Real.arccos ((11/10) / Real.sqrt (5/4)) ≤
      Real.arccos ((17/10) / Real.sqrt (13/4)) := by
    rcases eq_or_lt_of_le hCA with h | h
    · rw [h]
    · exact le_of_lt (Real.strictAntiOn_arccos memC memA h)
  simp only [List.map_cons, List.map_nil, List.insertionSort,
    List.orderedInsert, t2, t3a, t3b, t4a, t4b, if_true, if_false]
  left
  rw [Real.arccos_one]
  norm_num

/-- C3 counterexample: the ray from `(10.5, 2)` with unit eye `(0.6, 0.8)`
hits wall cell `(11, 3)` (march distance `1.3`); its far corner `(12, 4)`
lies dead on the ray (angle `0`), so the two-smallest-*angles* rule of the
claim reports `boundary = true`, but the code tests the two *nearest*
corners `(11, 3)` and `(12, 3)` (angles `≈ 0.18` and `≈ 0.34` rad) and
reports `boundary = false`. -/
theorem boundary_claim_mismatch :
    rayMarch 20 (21/2) 2 (3/5) (4/5) = some (13/10) ∧
    test_x (21/2) (3/5) (13/10) = 11 ∧ test_y 2 (4/5) (13/10) = 3 ∧
    is_wall gameMap 11 3 = true ∧
    (3/5 : ℝ) * (3/5) + (4/5 : ℝ) * (4/5) = 1 ∧
    boundarySpec (21/2) 2 (3/5) (4/5) 11 3 ∧
    ¬ boundary (21/2) 2 (3/5) (4/5) 11 3 :=
  ⟨by decide, by decide, by decide, by decide, by norm_num,
   boundarySpec_cex, not_boundary_cex⟩

instance : IsTotal (ℝ × ℝ) (fun a b => a.1 ≤ b.1) :=
  ⟨fun a b => le_total a.1 b.1⟩

instance : IsTrans (ℝ × ℝ) (fun a b => a.1 ≤ b.1) :=
  ⟨fun _ _ _ hab hbc => le_trans hab hbc⟩

/-- C3 (amended): the classification sorts the four corner pairs by
*distance to the player* (ascending; the sorted list is a permutation of
the corner pairs, and its head realizes the minimum distance), and sets
`boundary = true` exactly when at least one of the first two — the two
nearest corners — has angle `acos(dot)` below `0.01` rad. -/
theorem boundary_two_nearest (px py ex ey : ℝ) (tX tY : ℤ) :
    ((sortedCorners px py ex ey tX tY).map Prod.fst).Sorted (fun a b => a ≤ b) ∧
    (sortedCorners px py ex ey tX tY).Perm (cornerPairs px py ex ey tX tY) ∧
    (∀ q ∈ cornerPairs px py ex ey tX tY,
      ((sortedCorners px py ex ey tX tY).getD 0 (0, 0)).1 ≤ q.1) ∧
    (boundary px py ex ey tX tY ↔
      Real.arccos ((sortedCorners px py ex ey tX tY).getD 0 (0, 0)).2 < 1/100 ∨
      Real.arccos ((sortedCorners px py ex ey tX tY).getD 1 (0, 0)).2 < 1/100) := by
  have hsorted : (sortedCorners px py ex ey tX tY).Sorted
      (fun a b : ℝ × ℝ => a.1 ≤ b.1) :=
    List.sorted_insertionSort _ _
  have hperm : (sortedCorners px py ex ey tX tY).Perm
      (cornerPairs px py ex ey tX tY) :=
    List.perm_insertionSort _ _
  refine ⟨List.pairwise_map.mpr hsorted, hperm, ?_, Iff.rfl⟩
  intro q hq
  have hq' : q ∈ sortedCorners px py ex ey tX tY := hperm.mem_iff.mpr hq
  cases hs : sortedCorners px py ex ey tX tY with
  | nil => rw [hs] at hq'; simp at hq'
  | cons a t =>
    rw [hs] at hq' hsorted
    simp only [List.getD_cons_zero]
    rcases List.mem_cons.mp hq' with h | h
    · rw [h]
    · exact List.rel_of_sorted_cons hsorted q h

/-- C3 witness: at the scenario the head of the distance-sorted list is at
most the far corner's distance `5/2`. -/
theorem boundary_two_nearest_witness :
    ((sortedCorners (21/2) 2 (3/5) (4/5) 11 3).getD 0 (0, 0)).1 ≤ (5/2 : ℝ) :=
  (boundary_two_nearest (21/2) 2 (3/5) (4/5) 11 3).2.2.1 (5/2, 1)
    (by rw [cornerPairs_eval]; simp)

end OlcFps
